import Mathlib

/-!
Verification of the ErajayaCSV "ZIP CSV Processor" (src/streamlit_app.py)
against its natural-language specification.

The pipeline is embedded shallowly:
* archives are association lists of entry names to decoded text content;
* the CSV parse/serialize pair (the `pd.read_csv` / `DataFrame.to_csv`
  calls at lines 49 and 80 of the source) is modelled at the character
  level: comma-split fields, newline-terminated rows, blank lines
  skipped, short rows padded, an expected width established as the
  wider of the header and the first data line (a wider first data line
  contributes implicit index columns), and only lines wider than the
  established width rejected — the documented behaviour of the pandas
  default configuration used by the source;
* `process_zip_file` and `main` are modelled as pure functions that also
  return the ordered list of UI events they emit, so that claims about
  what the caller is shown (and about the out-of-scope `rename_dict`
  reference at line 124 of the source) can be stated and settled.
-/

namespace ErajayaCSV

/-! ### Character-level splitting and joining -/

/-- Split a character list on a separator character.  Always returns a
nonempty list of pieces; the separator occurs in no piece. -/
def splitOnChar (c : Char) : List Char → List (List Char)
  | [] => [[]]
  | x :: xs =>
    match splitOnChar c xs with
    | [] => [[x]]
    | p :: ps => if x = c then [] :: p :: ps else (x :: p) :: ps

/-- Join character lists with a separator character between them. -/
def intercalateChar (c : Char) : List (List Char) → List Char
  | [] => []
  | [p] => p
  | p :: q :: ps => p ++ c :: intercalateChar c (q :: ps)

/-! ### Tables and CSV parsing/serialization

`pd.read_csv` (line 49 of the source) with its default configuration:
the first line is the header, blank lines are skipped, a data line
with fewer fields than the expected width is padded with missing
values, the expected width is the wider of the header and the first
data line (extra leading fields of a wider first data line become the
implicit index, per the documented index-column inference), and a data
line wider than the expected width raises a parser error.
`DataFrame.to_csv(index=False)` (line 80) writes the header line and
one line per row, each terminated by a newline.  Fields are kept as raw
strings (the spec fixes only header names as contractual; cell typing is
an implementation choice), and quoting is not exercised: the properties
proved below restrict to content without embedded delimiters, quotes or
line breaks, where the pandas quoting branch never fires. -/

/-- A parsed table: ordered header names and ordered rows of fields. -/
structure Table where
  headers : List String
  rows : List (List String)
deriving DecidableEq, Repr

/-- Errors of the modelled `pd.read_csv` call:
empty input (`EmptyDataError`) or a row with more fields than the
header (`ParserError`). -/
inductive TableError
  | emptyData
  | tooManyFields (expected got : Nat)
deriving DecidableEq, Repr

instance {ε α : Type} [DecidableEq ε] [DecidableEq α] : DecidableEq (Except ε α) :=
  fun a b =>
    match a, b with
    | .error x, .error y =>
      if h : x = y then .isTrue (by rw [h]) else .isFalse (by intro hc; injection hc; contradiction)
    | .error _, .ok _ => .isFalse (by intro hc; exact Except.noConfusion hc)
    | .ok _, .error _ => .isFalse (by intro hc; exact Except.noConfusion hc)
    | .ok x, .ok y =>
      if h : x = y then .isTrue (by rw [h]) else .isFalse (by intro hc; injection hc; contradiction)

/-- Comma-split a line into field strings. -/
def fieldsOfLine (l : List Char) : List String :=
  (splitOnChar ',' l).map (fun p => (⟨p⟩ : String))

/-- Pad a short row with empty fields up to the header width
(pandas renders missing trailing fields as absent values). -/
def padRow (n : Nat) (r : List String) : List String :=
  r ++ List.replicate (n - r.length) ""

/-- Check one data line against the established expected width `n`
(the header width, or the first data line's width when that is larger)
and pad a short line; only a line wider than the established width is
the pandas ParserError case. -/
def parseRow (n : Nat) (l : List Char) : Except TableError (List String) :=
  let fs := fieldsOfLine l
  if fs.length > n then .error (.tooManyFields n fs.length) else .ok (padRow n fs)

/-- Sequential error-propagating map, as pandas processes data lines:
the first bad line aborts the parse. -/
def mapExcept {ε α β : Type} (f : α → Except ε β) : List α → Except ε (List β)
  | [] => .ok []
  | x :: xs =>
    match f x with
    | .error e => .error e
    | .ok y =>
      match mapExcept f xs with
      | .error e => .error e
      | .ok ys => .ok (y :: ys)

/-- The nonempty lines of a text, in order (blank lines skipped,
matching the pandas default `skip_blank_lines=True`). -/
def contentLines (s : String) : List (List Char) :=
  (splitOnChar '\n' s.data).filter (fun l => !l.isEmpty)

/-- Parse a header line and the data lines that follow it, as the
pandas C tokenizer does.  The expected field count is the wider of the
header and the first data line: a first data line wider than the
header succeeds, its extra leading fields becoming the implicit index
(`df.columns` stays the header names, `to_csv(index=False)` later
drops the index and no downstream consumer reads it, so the Table
keeps the named columns only).  A later line wider than the
established count raises the parser error; shorter lines are padded. -/
def parseBodyData (h first : List Char) (more : List (List Char)) :
    Except TableError Table :=
  match mapExcept
      (parseRow (max (fieldsOfLine h).length (fieldsOfLine first).length))
      (first :: more) with
  | .error e => .error e
  | .ok rows =>
    .ok ⟨fieldsOfLine h,
         rows.map (List.drop
           (max (fieldsOfLine h).length (fieldsOfLine first).length
             - (fieldsOfLine h).length))⟩

/-- See `parseBodyData`: dispatch on whether any data line exists. -/
def parseBody (h : List Char) (rest : List (List Char)) : Except TableError Table :=
  match rest with
  | [] => .ok ⟨fieldsOfLine h, []⟩
  | first :: more => parseBodyData h first more

/-- Modelled `pd.read_csv` (line 49 of the source): first nonempty line
is the header; every later nonempty line is a data row parsed against
the header width. -/
def parseTable (s : String) : Except TableError Table :=
  match contentLines s with
  | [] => .error .emptyData
  | h :: rest => parseBody h rest

/-- One serialized CSV line. -/
def lineOfFields (fs : List String) : List Char :=
  intercalateChar ',' (fs.map String.data)

/-- Modelled `DataFrame.to_csv(index=False)` (line 80 of the source):
header line then data lines, each newline-terminated. -/
def serialize (t : Table) : String :=
  ⟨((t.headers :: t.rows).map (fun r => lineOfFields r ++ ['\n'])).flatten⟩

/-! ### The header rename stage (lines 52-70 of the source) -/

/-- The `column_mapping` dict literal at lines 52-62 of the source. -/
def column_mapping : List (String × String) :=
  [("Campaign Id", "Campaign__Campaign_Id"),
   ("Campaign Name", "campaign__name"),
   ("Entered", "campaign__campaign_start_date"),
   ("Sent Date", "Date__date"),
   ("Published", "Contacted_Customers"),
   ("Sent", "Msg_Sent"),
   ("Delivered", "Msg_Delivered"),
   ("Unique Opened", "Unique_Open_Count"),
   ("Unique Opened %", "Unique_Click_Count")]

/-- First-match association lookup (the mapping's keys are distinct, so
this agrees with Python dict lookup). -/
def lookupAssoc : List (String × String) → String → Option String
  | [], _ => none
  | (k, v) :: ps, h => if k = h then some v else lookupAssoc ps h

/-- Line 69 of the source:
`rename_dict = {old: new for old, new in column_mapping.items() if old in df.columns}`. -/
def buildRenameDict (headers : List String) : List (String × String) :=
  column_mapping.filter (fun p => decide (p.1 ∈ headers))

/-- Effect of `df.rename(columns=d)` on the header sequence: each name
maps through the dict if present, else stays. -/
def applyRename (d : List (String × String)) (headers : List String) : List String :=
  headers.map (fun h => (lookupAssoc d h).getD h)

/-- Line 70 of the source: rename the columns of a dataframe.  Row data
is untouched by `DataFrame.rename`. -/
def renameTable (t : Table) : Table :=
  ⟨applyRename (buildRenameDict t.headers) t.headers, t.rows⟩

/-- The renamed-header count the source reports as `len(rename_dict)`. -/
def renamedCount (t : Table) : Nat :=
  (buildRenameDict t.headers).length

/-! ### Timestamped output name (lines 76-77 of the source) -/

/-- A wall-clock timestamp as `datetime.now()` exposes it.  Python
datetimes satisfy `1 <= year <= 9999`, `1 <= month <= 12`, etc. -/
structure DateTime where
  year : Nat
  month : Nat
  day : Nat
  hour : Nat
  minute : Nat
  second : Nat
deriving DecidableEq, Repr

/-- The decimal digit character for `n % 10`. -/
def digitChar (n : Nat) : Char := Char.ofNat (48 + n % 10)

/-- Two-digit zero-padded decimal, the `strftime` field formats
`%m %d %H %M %S` on their value ranges. -/
def pad2 (n : Nat) : String := ⟨[digitChar (n / 10), digitChar n]⟩



/-- Four-digit zero-padded decimal, the `strftime` field format `%Y`
on the datetime year range `1..9999`. -/
def pad4 (n : Nat) : String :=
  ⟨[digitChar (n / 1000), digitChar (n / 100), digitChar (n / 10), digitChar n]⟩

/-- `datetime.now().strftime("%Y%m%d_%H%M%S")`, line 76 of the source. -/
def strftimeYmdHMS (t : DateTime) : String :=
  pad4 t.year ++ pad2 t.month ++ pad2 t.day ++ "_" ++
    pad2 t.hour ++ pad2 t.minute ++ pad2 t.second

/-- Line 77 of the source: `output_filename = f"processed_[timestamp].csv"`. -/
def outputFilename (now : DateTime) : String :=
  "processed_" ++ strftimeYmdHMS now ++ ".csv"

/-! ### The archive and the processing pipeline -/

/-- An in-memory ZIP archive: named entries with decoded text content,
in the archive's listing order. -/
def Archive := List (String × String)

/-- `zip_ref.namelist()`, line 32 of the source. -/
def namelist (ar : Archive) : List String := ar.map Prod.fst

/-- Python `str.lower`, applied characterwise. -/
def lowerStr (s : String) : String := ⟨s.data.map Char.toLower⟩

/-- Line 35 of the source: `f.lower().endswith(".csv")`. -/
def endsWithCsv (s : String) : Bool :=
  List.isSuffixOf ".csv".data (lowerStr s).data

/-- `zip_ref.read(name)`, line 46 of the source: content of the (first)
entry with the given name. -/
def readEntry (ar : Archive) (n : String) : String :=
  ((ar.find? (fun e => e.1 == n)).map Prod.snd).getD ""

/-- Errors terminating `process_zip_file`: no `.csv` entry (surfaced via
`st.error` and a `None` return, lines 37-39), or a parse failure
(the uncaught pandas exception from line 49). -/
inductive PipelineError
  | noTabularFileFound
  | malformed (e : TableError)
deriving DecidableEq, Repr

/-- The tuple `process_zip_file` returns on success (line 82). -/
structure ProcessedResult where
  df : Table
  csv_string : String
  output_filename : String
deriving DecidableEq, Repr

/-- Python runtime errors relevant to `main`: an unbound name. -/
inductive PyError
  | nameError (n : String)
deriving DecidableEq, Repr

/-- Observable UI events, in the order the script emits them. -/
inductive UIEvent
  | successBanner
  | errorMsg (msg : String)
  | info (msg : String)
  | entryRead (name : String)
  | writeCols (label : String) (cols : List String)
  | writeText (msg : String)
  | preview (t : Table)
  | downloadLink (filename : String) (payload : String)
  | metric (label : String) (value : String)
  | uncaughtName (err : PyError)
  | uncaughtParse (err : TableError)
deriving DecidableEq, Repr

/-- Lines 43-82 of the source: extracting, parsing, renaming and
serializing the selected entry. -/
def processEntry (now : DateTime) (ar : Archive) (csv_file : String) :
    List UIEvent × Except PipelineError ProcessedResult :=
  match parseTable (readEntry ar csv_file) with
  | .error e =>
    ([.info ("Found CSV file: " ++ csv_file), .entryRead csv_file], .error (.malformed e))
  | .ok df =>
    let rename_dict := buildRenameDict df.headers
    let df2 : Table := ⟨applyRename rename_dict df.headers, df.rows⟩
    let csv_string := serialize df2
    ([.info ("Found CSV file: " ++ csv_file), .entryRead csv_file,
      .writeCols "Original columns:" df.headers,
      .writeCols "Renamed columns:" df2.headers],
     .ok ⟨df2, csv_string, outputFilename now⟩)

/-- Lines 26-82 of the source, `process_zip_file`: the UI events emitted
and either the returned result or the terminating error.  The entry
actually extracted is recorded as an `entryRead` event. -/
def process_zip_file (now : DateTime) (ar : Archive) :
    List UIEvent × Except PipelineError ProcessedResult :=
  match (namelist ar).filter endsWithCsv with
  | [] => ([.errorMsg "No CSV files found in the ZIP archive"], .error .noTabularFileFound)
  | csv_file :: _ => processEntry now ar csv_file

/-! ### The caller (`main`, lines 90-124 of the source)

`main` binds `uploaded_file` (line 94), unpacks the returned triple into
`processed_df`, `csv_string`, `filename` (line 103) and binds `col1`,
`col2` (line 120).  The module scope binds the imported names and the
three function names.  `rename_dict` is bound in neither scope — it is a
local of `process_zip_file` — so evaluating `len(rename_dict)` at line
124 is a name lookup that fails with `NameError`. -/

/-- Values a `main` local can hold, as far as the display code reads them. -/
inductive PyVal
  | vStr (s : String)
  | vTable (t : Table)
  | vDict (d : List (String × String))
  | vOpaque (tag : String)
deriving DecidableEq, Repr

/-- The local names `main` has bound by the time line 124 runs, with
their values, from the assignments at lines 94, 103 and 120. -/
def mainEnv (r : ProcessedResult) : List (String × PyVal) :=
  [("uploaded_file", .vOpaque "UploadedFile"),
   ("processed_df", .vTable r.df),
   ("csv_string", .vStr r.csv_string),
   ("filename", .vStr r.output_filename),
   ("col1", .vOpaque "DeltaGenerator"),
   ("col2", .vOpaque "DeltaGenerator")]

/-- Module-level names: the imports at lines 1-7 and the three
function definitions. -/
def moduleGlobals : List (String × PyVal) :=
  [("zipfile", .vOpaque "module"), ("pd", .vOpaque "module"),
   ("os", .vOpaque "module"), ("io", .vOpaque "module"),
   ("base64", .vOpaque "module"), ("st", .vOpaque "module"),
   ("datetime", .vOpaque "class"),
   ("process_zip_file", .vOpaque "function"),
   ("get_download_link", .vOpaque "function"),
   ("main", .vOpaque "function")]

/-- Python name resolution in `main`: locals, then module globals;
an unbound name raises `NameError`. -/
def lookupName (r : ProcessedResult) (x : String) : Except PyError PyVal :=
  match (mainEnv r ++ moduleGlobals).find? (fun p => p.1 == x) with
  | some p => .ok p.2
  | none => .error (.nameError x)

/-- Python `len` on the values it is applied to in `main`. -/
def pyLen : PyVal → Nat
  | .vStr s => s.length
  | .vTable t => t.rows.length
  | .vDict d => d.length
  | .vOpaque _ => 0

/-- Line 124 of the source: `st.metric("Columns Renamed", f"...")`
evaluates `len(rename_dict)` under `main`'s scope first. -/
def columnsRenamedMetric (r : ProcessedResult) : Except PyError UIEvent :=
  match lookupName r "rename_dict" with
  | .error e => .error e
  | .ok v => .ok (.metric "Columns Renamed" (toString (pyLen v)))

/-- Lines 105-124 of the source: the display block `main` runs after
`process_zip_file` returns.  A `None` result (modelled as the error
case) skips it entirely (line 105); an uncaught exception truncates
it. -/
def mainTail : Except PipelineError ProcessedResult → List UIEvent
  | .error .noTabularFileFound => []
  | .error (.malformed e) => [.uncaughtParse e]
  | .ok r =>
    [.preview ⟨r.df.headers, r.df.rows.take 5⟩,
     .downloadLink r.output_filename r.csv_string,
     .writeText ("Total rows: " ++ toString r.df.rows.length),
     .writeText ("Total columns: " ++ toString r.df.headers.length),
     .metric "Rows Processed" (toString r.df.rows.length)] ++
    match columnsRenamedMetric r with
    | .ok ev => [ev]
    | .error e => [.uncaughtName e]

/-- Lines 96-124 of the source: the full event stream of one run of
`main` after an upload and a button press. -/
def main_run (now : DateTime) (ar : Archive) : List UIEvent :=
  .successBanner :: (process_zip_file now ar).1 ++ mainTail (process_zip_file now ar).2

/-- Recognizer for the renamed-header-count metric of line 124. -/
def isColumnsRenamedMetric : UIEvent → Bool
  | .metric l _ => l == "Columns Renamed"
  | _ => false

/-- Decimal value of a digit string, most significant digit first. -/
def natOfDigits (l : List Char) : Nat :=
  l.foldl (fun a c => 10 * a + (c.toNat - 48)) 0

/-! ### Predicates for the round-trip law -/

/-- Every row has exactly one field per header (the Table data-model
invariant: each row maps each column to one value). -/
def Wellformed (t : Table) : Prop :=
  ∀ r ∈ t.rows, r.length = t.headers.length

/-- No header name or field value embeds the delimiter, the quote
character or a line break (the claim's "no edge cases" hypothesis). -/
def NoSpecialChars (t : Table) : Prop :=
  (∀ h ∈ t.headers, ',' ∉ h.data ∧ Char.ofNat 34 ∉ h.data ∧ '\n' ∉ h.data) ∧
  ∀ r ∈ t.rows, ∀ f ∈ r, ',' ∉ f.data ∧ Char.ofNat 34 ∉ f.data ∧ '\n' ∉ f.data

/-- The part of `NoSpecialChars` the serializer model actually needs. -/
def NoCommaNewline (t : Table) : Prop :=
  (∀ h ∈ t.headers, ',' ∉ h.data ∧ '\n' ∉ h.data) ∧
  ∀ r ∈ t.rows, ∀ f ∈ r, ',' ∉ f.data ∧ '\n' ∉ f.data

/-- No serialized line of the table is empty, so the blank-line
skipping of the parser loses nothing.  (Only a single-column table with
an empty header name or an all-empty row violates this.) -/
def NoBlankLines (t : Table) : Prop :=
  lineOfFields t.headers ≠ [] ∧ ∀ r ∈ t.rows, lineOfFields r ≠ []

instance (t : Table) : Decidable (Wellformed t) :=
  inferInstanceAs (Decidable (∀ r ∈ t.rows, r.length = t.headers.length))

instance (t : Table) : Decidable (NoSpecialChars t) :=
  inferInstanceAs (Decidable (_ ∧ _))

instance (t : Table) : Decidable (NoCommaNewline t) :=
  inferInstanceAs (Decidable (_ ∧ _))

instance (t : Table) : Decidable (NoBlankLines t) :=
  inferInstanceAs (Decidable (_ ∧ _))

/-- The first data line is no wider than the header line, so parsing
infers no implicit index columns. -/
def noIndexWidth : List (List Char) → Prop
  | l :: first :: _ => (fieldsOfLine first).length ≤ (fieldsOfLine l).length
  | _ => True

instance : ∀ ls : List (List Char), Decidable (noIndexWidth ls)
  | [] => .isTrue trivial
  | [_] => .isTrue trivial
  | _ :: _ :: _ => Nat.decLe _ _

/-- Input bytes whose parse performs no implicit index-column
inference. -/
def NoImplicitIndex (s : String) : Prop :=
  noIndexWidth (contentLines s)

instance (s : String) : Decidable (NoImplicitIndex s) :=
  inferInstanceAs (Decidable (noIndexWidth (contentLines s)))

/-- The RenameMap table of spec section 6, transcribed row by row from
the spec's own markdown table (for comparison against the source's
`column_mapping`). -/
def specRenameMapTable : List (String × String) :=
  [("Campaign Id", "Campaign__Campaign_Id"),
   ("Campaign Name", "campaign__name"),
   ("Entered", "campaign__campaign_start_date"),
   ("Sent Date", "Date__date"),
   ("Published", "Contacted_Customers"),
   ("Sent", "Msg_Sent"),
   ("Delivered", "Msg_Delivered"),
   ("Unique Opened", "Unique_Open_Count"),
   ("Unique Opened %", "Unique_Click_Count")]

/-! ### Lemmas -/

theorem splitOnChar_ne_nil (c : Char) (l : List Char) : splitOnChar c l ≠ [] := by
  cases l with
  | nil => simp [splitOnChar]
  | cons x xs =>
    simp only [splitOnChar]
    cases splitOnChar c xs with
    | nil => simp
    | cons p ps =>
      by_cases h : x = c <;> simp [h]

theorem splitOnChar_cons_of_eq {c : Char} {xs : List Char} {q : List Char}
    {qs : List (List Char)} (h : splitOnChar c xs = q :: qs) (x : Char) :
    splitOnChar c (x :: xs) = if x = c then [] :: q :: qs else (x :: q) :: qs := by
  simp only [splitOnChar, h]

theorem splitOnChar_of_not_mem {c : Char} {l : List Char} (h : c ∉ l) :
    splitOnChar c l = [l] := by
  induction l with
  | nil => rfl
  | cons x xs ih =>
    have hx : x ≠ c := fun hxc => h (by simp [hxc])
    have hxs : c ∉ xs := fun hm => h (by simp [hm])
    rw [splitOnChar_cons_of_eq (ih hxs) x]
    simp [hx]

theorem splitOnChar_append_cons {c : Char} {p : List Char} (h : c ∉ p) (r : List Char) :
    splitOnChar c (p ++ c :: r) = p :: splitOnChar c r := by
  induction p with
  | nil =>
    cases hr : splitOnChar c r with
    | nil => exact absurd hr (splitOnChar_ne_nil c r)
    | cons q qs =>
      rw [List.nil_append, splitOnChar_cons_of_eq hr c]
      simp
  | cons a p ih =>
    have ha : a ≠ c := fun hac => h (by simp [hac])
    have hp : c ∉ p := fun hm => h (by simp [hm])
    have hrec := ih hp
    cases hr : splitOnChar c (p ++ c :: r) with
    | nil => exact absurd hr (splitOnChar_ne_nil c (p ++ c :: r))
    | cons q qs =>
      rw [hr] at hrec
      rw [List.cons_append, splitOnChar_cons_of_eq hr a]
      injection hrec with h1 h2
      subst h1
      subst h2
      simp [ha]

theorem splitOnChar_intercalateChar {c : Char} :
    ∀ {ps : List (List Char)}, ps ≠ [] → (∀ p ∈ ps, c ∉ p) →
      splitOnChar c (intercalateChar c ps) = ps
  | [], h, _ => absurd rfl h
  | [p], _, hmem => by
      simp only [intercalateChar]
      exact splitOnChar_of_not_mem (hmem p (by simp))
  | p :: q :: ps, _, hmem => by
      simp only [intercalateChar]
      rw [splitOnChar_append_cons (hmem p (by simp))]
      rw [splitOnChar_intercalateChar (by simp) (fun x hx => hmem x (by simp [hx]))]

theorem intercalateChar_splitOnChar (c : Char) (l : List Char) :
    intercalateChar c (splitOnChar c l) = l := by
  induction l with
  | nil => rfl
  | cons x xs ih =>
    cases hr : splitOnChar c xs with
    | nil => exact absurd hr (splitOnChar_ne_nil c xs)
    | cons p ps =>
      rw [hr] at ih
      rw [splitOnChar_cons_of_eq hr x]
      by_cases hx : x = c
      · subst hx
        simpa [intercalateChar] using ih
      · simp only [hx, if_false]
        cases ps with
        | nil => simpa [intercalateChar] using congrArg (x :: ·) ih
        | cons q qs => simpa [intercalateChar] using congrArg (x :: ·) ih

theorem mem_of_mem_splitOnChar (c : Char) (l : List Char) :
    ∀ p ∈ splitOnChar c l, ∀ a ∈ p, a = c ∨ a ∈ l := by
  induction l with
  | nil =>
    intro p hp a ha
    simp [splitOnChar] at hp
    subst hp
    simp at ha
  | cons x xs ih =>
    intro p hp a ha
    cases hr : splitOnChar c xs with
    | nil => exact absurd hr (splitOnChar_ne_nil c xs)
    | cons q qs =>
      rw [splitOnChar_cons_of_eq hr x] at hp
      by_cases hx : x = c
      · simp only [hx, if_true] at hp
        rcases List.mem_cons.mp hp with hp | hp
        · subst hp; simp at ha
        · rcases ih p (by rw [hr]; exact hp) a ha with h | h
          · exact Or.inl h
          · exact Or.inr (by simp [h])
      · simp only [hx, if_false] at hp
        rcases List.mem_cons.mp hp with hp | hp
        · subst hp
          rcases List.mem_cons.mp ha with ha | ha
          · exact Or.inr (by simp [ha])
          · rcases ih q (by rw [hr]; simp) a ha with h | h
            · exact Or.inl h
            · exact Or.inr (by simp [h])
        · rcases ih p (by rw [hr]; simp [hp]) a ha with h | h
          · exact Or.inl h
          · exact Or.inr (by simp [h])

theorem not_mem_of_mem_splitOnChar (c : Char) (l : List Char) :
    ∀ p ∈ splitOnChar c l, c ∉ p := by
  induction l with
  | nil =>
    intro p hp
    simp [splitOnChar] at hp
    subst hp; simp
  | cons x xs ih =>
    intro p hp
    cases hr : splitOnChar c xs with
    | nil => exact absurd hr (splitOnChar_ne_nil c xs)
    | cons q qs =>
      rw [splitOnChar_cons_of_eq hr x] at hp
      by_cases hx : x = c
      · simp only [hx, if_true] at hp
        rcases List.mem_cons.mp hp with hp | hp
        · subst hp; simp
        · exact ih p (by rw [hr]; exact hp)
      · simp only [hx, if_false] at hp
        rcases List.mem_cons.mp hp with hp | hp
        · subst hp
          intro hc
          rcases List.mem_cons.mp hc with hc | hc
          · exact hx hc.symm
          · exact ih q (by rw [hr]; simp) hc
        · exact ih p (by rw [hr]; simp [hp])

theorem mem_intercalateChar {c d : Char} :
    ∀ {ps : List (List Char)}, d ∈ intercalateChar c ps → d = c ∨ ∃ p ∈ ps, d ∈ p
  | [], h => by simp [intercalateChar] at h
  | [p], h => by
      simp only [intercalateChar] at h
      exact Or.inr ⟨p, by simp, h⟩
  | p :: q :: rs, h => by
      simp only [intercalateChar] at h
      rcases List.mem_append.mp h with h | h
      · exact Or.inr ⟨p, by simp, h⟩
      · rcases List.mem_cons.mp h with h | h
        · exact Or.inl h
        · rcases mem_intercalateChar h with h | ⟨r, hr, hd⟩
          · exact Or.inl h
          · refine Or.inr ⟨r, ?_, hd⟩
            simp at hr ⊢
            tauto

theorem intercalateChar_ne_nil_of_length {c : Char} {ps : List (List Char)}
    (h : 2 ≤ ps.length) : intercalateChar c ps ≠ [] := by
  match ps, h with
  | p :: q :: rs, _ =>
    simp only [intercalateChar]
    cases p <;> simp

/-! ### Unfolding lemmas for the match-based definitions -/

theorem parseTable_of_contentLines_nil {s : String} (h : contentLines s = []) :
    parseTable s = .error .emptyData := by
  unfold parseTable
  rw [h]

theorem parseTable_of_contentLines_cons {s : String} {l : List Char}
    {rest : List (List Char)} (h : contentLines s = l :: rest) :
    parseTable s = parseBody l rest := by
  unfold parseTable
  rw [h]

theorem parseBody_nil (l : List Char) : parseBody l [] = .ok ⟨fieldsOfLine l, []⟩ :=
  rfl

theorem parseBody_cons (l first : List Char) (more : List (List Char)) :
    parseBody l (first :: more) = parseBodyData l first more :=
  rfl

theorem parseBodyData_of_error {l first : List Char} {more : List (List Char)}
    {e : TableError}
    (h : mapExcept (parseRow (max (fieldsOfLine l).length (fieldsOfLine first).length))
        (first :: more) = .error e) :
    parseBodyData l first more = .error e := by
  unfold parseBodyData
  rw [h]

theorem parseBodyData_of_ok {l first : List Char} {more : List (List Char)}
    {rows : List (List String)}
    (h : mapExcept (parseRow (max (fieldsOfLine l).length (fieldsOfLine first).length))
        (first :: more) = .ok rows) :
    parseBodyData l first more
      = .ok ⟨fieldsOfLine l,
             rows.map (List.drop
               (max (fieldsOfLine l).length (fieldsOfLine first).length
                 - (fieldsOfLine l).length))⟩ := by
  unfold parseBodyData
  rw [h]

theorem process_zip_file_of_filter_nil {now : DateTime} {ar : Archive}
    (h : (namelist ar).filter endsWithCsv = []) :
    process_zip_file now ar =
      ([.errorMsg "No CSV files found in the ZIP archive"], .error .noTabularFileFound) := by
  unfold process_zip_file
  rw [h]

theorem process_zip_file_of_filter_cons {now : DateTime} {ar : Archive} {n : String}
    {rest : List String} (h : (namelist ar).filter endsWithCsv = n :: rest) :
    process_zip_file now ar = processEntry now ar n := by
  unfold process_zip_file
  rw [h]

theorem processEntry_of_parse_error {now : DateTime} {ar : Archive} {n : String}
    {e : TableError} (h : parseTable (readEntry ar n) = .error e) :
    processEntry now ar n =
      ([.info ("Found CSV file: " ++ n), .entryRead n], .error (.malformed e)) := by
  unfold processEntry
  rw [h]

theorem processEntry_of_parse_ok {now : DateTime} {ar : Archive} {n : String}
    {df : Table} (h : parseTable (readEntry ar n) = .ok df) :
    processEntry now ar n =
      ([.info ("Found CSV file: " ++ n), .entryRead n,
        .writeCols "Original columns:" df.headers,
        .writeCols "Renamed columns:" (renameTable df).headers],
       .ok ⟨renameTable df, serialize (renameTable df), outputFilename now⟩) := by
  unfold processEntry
  rw [h]
  rfl

/-! ### Lemmas about `mapExcept`, `parseRow` and `fieldsOfLine` -/

theorem mapExcept_ok_of_forall {ε α β : Type} {f : α → Except ε β} {g : α → β} :
    ∀ {l : List α}, (∀ x ∈ l, f x = .ok (g x)) → mapExcept f l = .ok (l.map g)
  | [], _ => rfl
  | x :: xs, h => by
    have hx := h x (by simp)
    have hxs := mapExcept_ok_of_forall (f := f) (g := g)
      (l := xs) (fun y hy => h y (by simp [hy]))
    simp only [mapExcept, hx, hxs, List.map_cons]

theorem mapExcept_ok_mem {ε α β : Type} {f : α → Except ε β} :
    ∀ {l : List α} {ys : List β}, mapExcept f l = .ok ys →
      ∀ y ∈ ys, ∃ x ∈ l, f x = .ok y
  | [], ys, h => by
    intro y hy
    simp only [mapExcept] at h
    injection h with h
    subst h
    simp at hy
  | x :: xs, ys, h => by
    intro y hy
    simp only [mapExcept] at h
    cases hfx : f x with
    | error e => rw [hfx] at h; exact Except.noConfusion h
    | ok b =>
      rw [hfx] at h
      cases hrec : mapExcept f xs with
      | error e => rw [hrec] at h; exact Except.noConfusion h
      | ok bs =>
        rw [hrec] at h
        injection h with h
        subst h
        rcases List.mem_cons.mp hy with hy | hy
        · exact ⟨x, by simp, by rw [hfx, hy]⟩
        · rcases mapExcept_ok_mem hrec y hy with ⟨x2, hx2, hfx2⟩
          exact ⟨x2, by simp [hx2], hfx2⟩

theorem mapExcept_error_of_mem {ε α β : Type} {f : α → Except ε β} :
    ∀ {l : List α} {x : α} {e : ε}, x ∈ l → f x = .error e →
      ∃ e2, mapExcept f l = .error e2 ∧ ∃ x2 ∈ l, f x2 = .error e2
  | [], x, e, hx, _ => by simp at hx
  | y :: xs, x, e, hx, hfe => by
    cases hfy : f y with
    | error e2 => exact ⟨e2, by simp only [mapExcept, hfy], y, by simp, hfy⟩
    | ok b =>
      have hxxs : x ∈ xs := by
        rcases List.mem_cons.mp hx with h | h
        · subst h; rw [hfy] at hfe; exact Except.noConfusion hfe
        · exact h
      rcases mapExcept_error_of_mem hxxs hfe with ⟨e2, hmap, x2, hx2, hfx2⟩
      refine ⟨e2, ?_, x2, by simp [hx2], hfx2⟩
      simp only [mapExcept, hfy, hmap]

theorem mapExcept_map {ε α β γ : Type} {f : β → Except ε γ} {g : α → β} :
    ∀ (l : List α), mapExcept f (l.map g) = mapExcept (fun x => f (g x)) l
  | [] => rfl
  | x :: xs => by
    simp only [List.map_cons, mapExcept, mapExcept_map xs]

theorem fieldsOfLine_ne_nil (l : List Char) : fieldsOfLine l ≠ [] := by
  simp only [fieldsOfLine, ne_eq, List.map_eq_nil_iff]
  exact splitOnChar_ne_nil ',' l

theorem padRow_length {n : Nat} {r : List String} (h : r.length ≤ n) :
    (padRow n r).length = n := by
  simp only [padRow, List.length_append, List.length_replicate]
  omega

theorem padRow_of_length_eq {n : Nat} {r : List String} (h : r.length = n) :
    padRow n r = r := by
  simp [padRow, h]

theorem parseRow_ok_of_le {n : Nat} {l : List Char}
    (h : (fieldsOfLine l).length ≤ n) :
    parseRow n l = .ok (padRow n (fieldsOfLine l)) := by
  simp [parseRow, Nat.not_lt.mpr h]

theorem parseRow_ok_inv {n : Nat} {l : List Char} {r : List String}
    (h : parseRow n l = .ok r) :
    r = padRow n (fieldsOfLine l) ∧ (fieldsOfLine l).length ≤ n := by
  by_cases hlen : (fieldsOfLine l).length > n
  · simp [parseRow, hlen] at h
  · simp [parseRow, hlen] at h
    exact ⟨h.symm, Nat.not_lt.mp hlen⟩

theorem parseRow_error_inv {n : Nat} {l : List Char} {e : TableError}
    (h : parseRow n l = .error e) :
    e = .tooManyFields n (fieldsOfLine l).length ∧ n < (fieldsOfLine l).length := by
  by_cases hlen : (fieldsOfLine l).length > n
  · simp [parseRow, hlen] at h
    exact ⟨h.symm, hlen⟩
  · simp [parseRow, hlen] at h

theorem parseRow_error_of_gt {n : Nat} {l : List Char}
    (h : n < (fieldsOfLine l).length) :
    parseRow n l = .error (.tooManyFields n (fieldsOfLine l).length) := by
  simp [parseRow, h]

/-! ### Lemmas about the rename stage -/

theorem lookupAssoc_filter_of_mem {hs : List String} {h : String}
    (hmem : h ∈ hs) :
    ∀ (l : List (String × String)),
      lookupAssoc (l.filter (fun p => decide (p.1 ∈ hs))) h = lookupAssoc l h
  | [] => rfl
  | (k, v) :: l => by
    by_cases hk : k = h
    · subst hk
      have : decide (k ∈ hs) = true := by simpa using hmem
      simp [List.filter_cons, this, lookupAssoc]
    · by_cases hkhs : k ∈ hs
      · have : decide (k ∈ hs) = true := by simpa using hkhs
        simp [List.filter_cons, this, lookupAssoc, hk,
          lookupAssoc_filter_of_mem hmem l]
      · have : decide (k ∈ hs) = false := by simpa using hkhs
        simp [List.filter_cons, this, lookupAssoc, hk,
          lookupAssoc_filter_of_mem hmem l]

theorem lookupAssoc_filter_of_none {h : String} {q : String × String → Bool} :
    ∀ {l : List (String × String)}, lookupAssoc l h = none →
      lookupAssoc (l.filter q) h = none
  | [], _ => rfl
  | (k, v) :: l, hl => by
    have hk : k ≠ h := by
      intro hk
      simp [lookupAssoc, hk] at hl
    have hrec : lookupAssoc l h = none := by
      simpa [lookupAssoc, hk] using hl
    cases hq : q (k, v) <;>
      simp [List.filter_cons, hq, lookupAssoc, hk, lookupAssoc_filter_of_none hrec]

theorem lookupAssoc_mem_snd {h v : String} :
    ∀ {l : List (String × String)}, lookupAssoc l h = some v → v ∈ l.map Prod.snd
  | [], hl => by simp [lookupAssoc] at hl
  | (k, w) :: l, hl => by
    by_cases hk : k = h
    · simp only [lookupAssoc, hk, if_true] at hl
      injection hl with hl
      simp [hl]
    · simp only [lookupAssoc, hk, if_false] at hl
      simp [lookupAssoc_mem_snd hl]

theorem length_filter_fst {α β : Type} (q : α → Bool) :
    ∀ (l : List (α × β)),
      (l.filter (fun p => q p.1)).length = ((l.map Prod.fst).filter q).length
  | [] => rfl
  | (a, b) :: l => by
    cases hq : q a <;>
      simp [List.filter_cons, hq, length_filter_fst q l]

/-- No target name of the mapping is also a source key (checked over the
nine concrete pairs). -/
theorem targets_not_keys :
    ∀ v ∈ column_mapping.map Prod.snd, lookupAssoc column_mapping v = none := by
  decide

theorem keys_nodup : (column_mapping.map Prod.fst).Nodup := by
  decide

/-- Renamed headers, described pointwise through the full mapping. -/
theorem renameTable_headers_map (t : Table) :
    (renameTable t).headers =
      t.headers.map (fun h => (lookupAssoc column_mapping h).getD h) := by
  simp only [renameTable, applyRename, buildRenameDict]
  exact List.map_congr_left (fun h hmem => by rw [lookupAssoc_filter_of_mem hmem])

/-- Every renamed header name is a non-key of the mapping. -/
theorem renameTable_headers_not_keys (t : Table) :
    ∀ h ∈ (renameTable t).headers, lookupAssoc column_mapping h = none := by
  intro h hmem
  rw [renameTable_headers_map] at hmem
  rcases List.mem_map.mp hmem with ⟨x, hx, rfl⟩
  cases hlx : lookupAssoc column_mapping x with
  | none => simp [hlx]
  | some v =>
    simp only [hlx, Option.getD_some]
    exact targets_not_keys v (lookupAssoc_mem_snd hlx)

/-! ### Decimal digit lemmas for the timestamp format -/

theorem digitChar_toNat (n : Nat) : (digitChar n).toNat = 48 + n % 10 := by
  have hlt : n % 10 < 10 := Nat.mod_lt _ (by norm_num)
  have hball : ∀ k, k < 10 → (Char.ofNat (48 + k)).toNat = 48 + k := by decide
  exact hball (n % 10) hlt

theorem digitChar_isDigit (n : Nat) : (digitChar n).isDigit = true := by
  have hlt : n % 10 < 10 := Nat.mod_lt _ (by norm_num)
  have hball : ∀ k, k < 10 → (Char.ofNat (48 + k)).isDigit = true := by decide
  exact hball (n % 10) hlt

theorem natOfDigits_pad2 {n : Nat} (h : n ≤ 99) : natOfDigits (pad2 n).data = n := by
  simp only [pad2, natOfDigits, List.foldl, digitChar_toNat]
  omega

theorem natOfDigits_pad4 {n : Nat} (h : n ≤ 9999) : natOfDigits (pad4 n).data = n := by
  simp only [pad4, natOfDigits, List.foldl, digitChar_toNat]
  omega

/-! ### Round-trip lemmas for the parse/serialize pair -/

theorem serialize_data (t : Table) :
    (serialize t).data = ((t.headers :: t.rows).map (fun r => lineOfFields r ++ ['\n'])).flatten :=
  rfl

theorem flatten_map_append_singleton (c : Char) :
    ∀ (ls : List (List Char)),
      (ls.map (fun l => l ++ [c])).flatten = intercalateChar c (ls ++ [[]])
  | [] => by simp [intercalateChar]
  | l :: ls => by
    cases ls with
    | nil => simp [intercalateChar]
    | cons l2 ls2 =>
      have ih := flatten_map_append_singleton c (l2 :: ls2)
      simp only [List.map_cons, List.flatten_cons] at ih ⊢
      rw [ih, List.cons_append]
      simp only [intercalateChar, List.cons_append]
      simp [List.append_assoc]

theorem mem_contentLines {s : String} {l : List Char} (h : l ∈ contentLines s) :
    l ∈ splitOnChar '\n' s.data ∧ l ≠ [] := by
  rcases List.mem_filter.mp h with ⟨hm, hp⟩
  refine ⟨hm, ?_⟩
  intro hl
  subst hl
  simp at hp

theorem newline_not_mem_of_mem_contentLines {s : String} {l : List Char}
    (h : l ∈ contentLines s) : '\n' ∉ l :=
  not_mem_of_mem_splitOnChar '\n' s.data l (mem_contentLines h).1

theorem contentLines_serialize (t : Table)
    (hnl : ∀ l ∈ (t.headers :: t.rows).map lineOfFields, '\n' ∉ l)
    (hne : ∀ l ∈ (t.headers :: t.rows).map lineOfFields, l ≠ []) :
    contentLines (serialize t) = (t.headers :: t.rows).map lineOfFields := by
  have hmap : (t.headers :: t.rows).map (fun r => lineOfFields r ++ ['\n'])
      = ((t.headers :: t.rows).map lineOfFields).map (fun l => l ++ ['\n']) := by
    simp [List.map_map, Function.comp]
  unfold contentLines
  rw [serialize_data, hmap, flatten_map_append_singleton]
  rw [splitOnChar_intercalateChar (by simp) ?hmem]
  case hmem =>
    intro p hp
    rcases List.mem_append.mp hp with hp | hp
    · exact hnl p hp
    · simp at hp
      subst hp
      simp
  rw [List.filter_append]
  have h1 : ((t.headers :: t.rows).map lineOfFields).filter (fun l => !l.isEmpty)
      = (t.headers :: t.rows).map lineOfFields := by
    apply List.filter_eq_self.mpr
    intro a ha
    have := hne a ha
    simp [List.isEmpty_iff]
    exact this
  rw [h1]
  simp

theorem fieldsOfLine_lineOfFields {fs : List String} (hfs : fs ≠ [])
    (hc : ∀ f ∈ fs, ',' ∉ f.data) : fieldsOfLine (lineOfFields fs) = fs := by
  unfold fieldsOfLine lineOfFields
  rw [splitOnChar_intercalateChar (by simpa using hfs) ?h2]
  case h2 =>
    intro p hp
    rcases List.mem_map.mp hp with ⟨f, hf, rfl⟩
    exact hc f hf
  rw [List.map_map]
  calc fs.map ((fun p : List Char => (⟨p⟩ : String)) ∘ String.data)
      = fs.map id := List.map_congr_left (fun f _ => rfl)
    _ = fs := List.map_id fs

theorem lineOfFields_fieldsOfLine (l : List Char) : lineOfFields (fieldsOfLine l) = l := by
  unfold fieldsOfLine lineOfFields
  rw [List.map_map]
  have hid : (String.data ∘ fun p : List Char => (⟨p⟩ : String)) = id := rfl
  rw [hid, List.map_id, intercalateChar_splitOnChar]

theorem field_chars {l : List Char} (hnl : '\n' ∉ l) :
    ∀ f ∈ fieldsOfLine l, ',' ∉ f.data ∧ '\n' ∉ f.data := by
  intro f hf
  rcases List.mem_map.mp hf with ⟨p, hp, rfl⟩
  constructor
  · exact not_mem_of_mem_splitOnChar ',' l p hp
  · intro hmem
    rcases mem_of_mem_splitOnChar ',' l p hp '\n' hmem with h | h
    · exact absurd h (by decide)
    · exact hnl h

/-- Master round-trip lemma: serializing then re-parsing a table with no
embedded delimiter or newline and no blank serialized line recovers it
exactly. -/
theorem parseTable_serialize (t : Table) (hw : Wellformed t)
    (hcn : NoCommaNewline t) (hnb : NoBlankLines t) :
    parseTable (serialize t) = .ok t := by
  have hh_ne : t.headers ≠ [] := fun h0 => hnb.1 (by rw [h0]; rfl)
  have hnl : ∀ l ∈ (t.headers :: t.rows).map lineOfFields, '\n' ∉ l := by
    intro l hl hmem
    rcases List.mem_map.mp hl with ⟨r, hr, rfl⟩
    rcases mem_intercalateChar hmem with hceq | ⟨p, hp, hmemp⟩
    · exact absurd hceq (by decide)
    · rcases List.mem_map.mp hp with ⟨f, hf, rfl⟩
      rcases List.mem_cons.mp hr with hr | hr
      · subst hr
        exact (hcn.1 f hf).2 hmemp
      · exact (hcn.2 r hr f hf).2 hmemp
  have hne : ∀ l ∈ (t.headers :: t.rows).map lineOfFields, l ≠ [] := by
    intro l hl
    rcases List.mem_map.mp hl with ⟨r, hr, rfl⟩
    rcases List.mem_cons.mp hr with hr | hr
    · subst hr
      exact hnb.1
    · exact hnb.2 r hr
  have hcl := contentLines_serialize t hnl hne
  rw [List.map_cons] at hcl
  rw [parseTable_of_contentLines_cons hcl]
  have hhead : fieldsOfLine (lineOfFields t.headers) = t.headers :=
    fieldsOfLine_lineOfFields hh_ne (fun f hf => (hcn.1 f hf).1)
  have hperrow : ∀ r ∈ t.rows, fieldsOfLine (lineOfFields r) = r := by
    intro r hr
    exact fieldsOfLine_lineOfFields (fun h0 => hnb.2 r hr (by rw [h0]; rfl))
      (fun f hf => (hcn.2 r hr f hf).1)
  have hrows : mapExcept (parseRow t.headers.length) (t.rows.map lineOfFields)
      = .ok t.rows := by
    rw [mapExcept_map]
    have hall : ∀ r ∈ t.rows,
        (fun r => parseRow t.headers.length (lineOfFields r)) r = .ok (id r) := by
      intro r hr
      have hfl := hperrow r hr
      have hlen : (fieldsOfLine (lineOfFields r)).length ≤ t.headers.length := by
        rw [hfl]
        exact le_of_eq (hw r hr)
      simp only [parseRow_ok_of_le hlen, hfl, padRow_of_length_eq (hw r hr), id]
    have := mapExcept_ok_of_forall hall
    simpa using this
  cases hrows0 : t.rows with
  | nil =>
    rw [List.map_nil, parseBody_nil, hhead, ← hrows0]
  | cons r0 rrest =>
    have hr0 : r0 ∈ t.rows := by
      rw [hrows0]
      simp
    have hmax : max (fieldsOfLine (lineOfFields t.headers)).length
        (fieldsOfLine (lineOfFields r0)).length = t.headers.length := by
      rw [hhead, hperrow r0 hr0, hw r0 hr0]
      exact Nat.max_self _
    have hme2 : mapExcept
        (parseRow (max (fieldsOfLine (lineOfFields t.headers)).length
          (fieldsOfLine (lineOfFields r0)).length))
        (lineOfFields r0 :: rrest.map lineOfFields) = .ok (r0 :: rrest) := by
      rw [hmax]
      rw [hrows0, List.map_cons] at hrows
      exact hrows
    rw [List.map_cons, parseBody_cons, parseBodyData_of_ok hme2, hmax, hhead]
    have hdrop : (r0 :: rrest).map
        (List.drop (t.headers.length - t.headers.length)) = r0 :: rrest := by
      rw [Nat.sub_self]
      calc (r0 :: rrest).map (List.drop 0)
          = (r0 :: rrest).map id := List.map_congr_left (fun x _ => rfl)
        _ = r0 :: rrest := List.map_id _
    rw [hdrop, ← hrows0]

/-- Every table produced by a successful parse is well-formed and has
no delimiter or newline embedded in any header name or field value; its
header line re-serializes nonempty, and when the parse inferred no
implicit index columns every row line re-serializes nonempty too. -/
theorem parse_ok_props {s : String} {t : Table} (hp : parseTable s = .ok t) :
    Wellformed t ∧ NoCommaNewline t ∧ lineOfFields t.headers ≠ [] ∧
      (NoImplicitIndex s → NoBlankLines t) := by
  cases hcl : contentLines s with
  | nil =>
    rw [parseTable_of_contentLines_nil hcl] at hp
    exact Except.noConfusion hp
  | cons h rest =>
    rw [parseTable_of_contentLines_cons hcl] at hp
    have hhead_mem : h ∈ contentLines s := by rw [hcl]; simp
    have hhead_nl : '\n' ∉ h := newline_not_mem_of_mem_contentLines hhead_mem
    cases rest with
    | nil =>
      rw [parseBody_nil] at hp
      injection hp with hp
      subst hp
      refine ⟨?_, ⟨fun f hf => field_chars hhead_nl f hf, ?_⟩, ?_, fun _ => ⟨?_, ?_⟩⟩
      · intro r hr
        simp at hr
      · intro r hr
        simp at hr
      · show lineOfFields (fieldsOfLine h) ≠ []
        rw [lineOfFields_fieldsOfLine]
        exact (mem_contentLines hhead_mem).2
      · show lineOfFields (fieldsOfLine h) ≠ []
        rw [lineOfFields_fieldsOfLine]
        exact (mem_contentLines hhead_mem).2
      · intro r hr
        simp at hr
    | cons first more =>
      rw [parseBody_cons] at hp
      cases hme : mapExcept
          (parseRow (max (fieldsOfLine h).length (fieldsOfLine first).length))
          (first :: more) with
      | error e =>
        rw [parseBodyData_of_error hme] at hp
        exact Except.noConfusion hp
      | ok rows0 =>
        rw [parseBodyData_of_ok hme] at hp
        injection hp with hp
        subst hp
        have hNE : (fieldsOfLine h).length
            ≤ max (fieldsOfLine h).length (fieldsOfLine first).length :=
          Nat.le_max_left _ _
        have hrest_mem : ∀ line ∈ first :: more, line ∈ contentLines s := by
          intro line hline
          rw [hcl]
          simp only [List.mem_cons] at hline ⊢
          tauto
        have hrow_src : ∀ r ∈ rows0, ∃ line ∈ first :: more,
            r = padRow (max (fieldsOfLine h).length (fieldsOfLine first).length)
              (fieldsOfLine line) ∧
            (fieldsOfLine line).length
              ≤ max (fieldsOfLine h).length (fieldsOfLine first).length := by
          intro r hr
          rcases mapExcept_ok_mem hme r hr with ⟨line, hline, hok⟩
          rcases parseRow_ok_inv hok with ⟨heq, hle⟩
          exact ⟨line, hline, heq, hle⟩
        refine ⟨?_, ⟨fun f hf => field_chars hhead_nl f hf, ?_⟩, ?_, ?_⟩
        · -- Wellformed: every index-dropped row has the header width
          intro r2 hr2
          rcases List.mem_map.mp hr2 with ⟨r, hr, rfl⟩
          rcases hrow_src r hr with ⟨line, _, heq, hle⟩
          show (r.drop _).length = (fieldsOfLine h).length
          rw [List.length_drop, heq, padRow_length hle]
          omega
        · -- row fields: no comma, no newline
          intro r2 hr2 f hf
          rcases List.mem_map.mp hr2 with ⟨r, hr, rfl⟩
          have hfr : f ∈ r := List.drop_subset _ _ hf
          rcases hrow_src r hr with ⟨line, hline, heq, _⟩
          rw [heq] at hfr
          rcases List.mem_append.mp hfr with hfr | hfr
          · exact field_chars
              (newline_not_mem_of_mem_contentLines (hrest_mem line hline)) f hfr
          · have : f = "" := List.eq_of_mem_replicate hfr
            subst this
            constructor <;> intro hmem <;> simp at hmem
        · -- header line nonempty
          show lineOfFields (fieldsOfLine h) ≠ []
          rw [lineOfFields_fieldsOfLine]
          exact (mem_contentLines hhead_mem).2
        · -- no implicit index: expected width is the header width and
          -- every row line re-serializes nonempty
          intro hni
          have hWN : (fieldsOfLine first).length ≤ (fieldsOfLine h).length := by
            have h2 := hni
            unfold NoImplicitIndex at h2
            rw [hcl] at h2
            exact h2
          have hEeq : max (fieldsOfLine h).length (fieldsOfLine first).length
              = (fieldsOfLine h).length := Nat.max_eq_left hWN
          refine ⟨?_, ?_⟩
          · show lineOfFields (fieldsOfLine h) ≠ []
            rw [lineOfFields_fieldsOfLine]
            exact (mem_contentLines hhead_mem).2
          · intro r2 hr2
            rcases List.mem_map.mp hr2 with ⟨r, hr, rfl⟩
            rcases hrow_src r hr with ⟨line, hline, heq, hle⟩
            rw [hEeq] at heq hle
            show lineOfFields (r.drop _) ≠ []
            rw [hEeq, Nat.sub_self, List.drop_zero, heq]
            by_cases hfull : (fieldsOfLine line).length = (fieldsOfLine h).length
            · rw [padRow_of_length_eq hfull, lineOfFields_fieldsOfLine]
              exact (mem_contentLines (hrest_mem line hline)).2
            · have hlt : (fieldsOfLine line).length < (fieldsOfLine h).length :=
                lt_of_le_of_ne hle hfull
              have hone : 1 ≤ (fieldsOfLine line).length := by
                have h3 := fieldsOfLine_ne_nil line
                cases hfle : fieldsOfLine line with
                | nil => exact absurd hfle h3
                | cons a as => simp
              have hrlen : (padRow (fieldsOfLine h).length (fieldsOfLine line)).length
                  = (fieldsOfLine h).length := padRow_length hle
              have h2 : 2 ≤ (padRow (fieldsOfLine h).length (fieldsOfLine line)).length := by
                omega
              unfold lineOfFields
              apply intercalateChar_ne_nil_of_length
              simpa using h2

/-- A successfully parsed table with no blank serialized row line
survives a serialize/re-parse cycle. -/
theorem parse_serialize_parse {s : String} {t : Table} (hp : parseTable s = .ok t)
    (hnb : NoBlankLines t) : parseTable (serialize t) = .ok t := by
  rcases parse_ok_props hp with ⟨hw, hcn, _, _⟩
  exact parseTable_serialize t hw hcn hnb

/-- When the parse inferred no implicit index columns, the
serialize/re-parse cycle needs no side condition at all. -/
theorem parse_serialize_parse_of_noIndex {s : String} {t : Table}
    (hp : parseTable s = .ok t) (hni : NoImplicitIndex s) :
    parseTable (serialize t) = .ok t := by
  rcases parse_ok_props hp with ⟨hw, hcn, hhl, hnb⟩
  exact parseTable_serialize t hw hcn ⟨hhl, (hnb hni).2⟩

/-- A table none of whose headers is a mapping key is fixed by the
rename stage. -/
theorem renameTable_of_no_keys {t : Table}
    (h : ∀ x ∈ t.headers, lookupAssoc column_mapping x = none) : renameTable t = t := by
  have hmap : applyRename (buildRenameDict t.headers) t.headers = t.headers := by
    unfold applyRename
    calc t.headers.map (fun x => (lookupAssoc (buildRenameDict t.headers) x).getD x)
        = t.headers.map id := List.map_congr_left (by
          intro x hx
          rw [buildRenameDict, lookupAssoc_filter_of_none (h x hx)]
          rfl)
      _ = t.headers := List.map_id t.headers
  unfold renameTable
  rw [hmap]

/-! ### The claims -/

/-- C8: the RenameMap used by every invocation is the fixed mapping of
exactly the nine source-to-target pairs of the spec's table, reproduced
verbatim, including "Unique Opened %" mapping to "Unique_Click_Count";
it is a static constant, not configurable input. -/
theorem C8_renameMap_verbatim :
    column_mapping = specRenameMapTable ∧
    column_mapping.length = 9 ∧
    lookupAssoc column_mapping "Unique Opened %" = some "Unique_Click_Count" :=
  ⟨rfl, rfl, by decide⟩

/-- C2: for every parsed Table the renamed-header count equals the size
of the intersection of the header set with the RenameMap's key set, and
on headers ["Campaign Id", "Foo", "Sent"] the count is 2 with result
headers ["Campaign__Campaign_Id", "Foo", "Msg_Sent"] in order. -/
theorem C2_renamedCount_intersection :
    (∀ t : Table, renamedCount t
        = (t.headers.toFinset ∩ (column_mapping.map Prod.fst).toFinset).card) ∧
    renameTable ⟨["Campaign Id", "Foo", "Sent"], []⟩
        = ⟨["Campaign__Campaign_Id", "Foo", "Msg_Sent"], []⟩ ∧
    renamedCount ⟨["Campaign Id", "Foo", "Sent"], []⟩ = 2 := by
  refine ⟨?_, by decide, by decide⟩
  intro t
  have h1 : renamedCount t
      = ((column_mapping.map Prod.fst).filter (fun a => decide (a ∈ t.headers))).length :=
    length_filter_fst (fun a => decide (a ∈ t.headers)) column_mapping
  rw [h1,
    ← List.toFinset_card_of_nodup (keys_nodup.filter (fun a => decide (a ∈ t.headers))),
    List.toFinset_filter]
  congr 1
  ext a
  simp [List.mem_toFinset]
  tauto

/-- C5: renaming replaces a header exactly when it equals a RenameMap
key under case-sensitive string equality, keeps every column at its
position (the new header list is the pointwise image of the old one),
never adds or removes a column, and leaves all row data unchanged. -/
theorem C5_rename_frame :
    ∀ t : Table,
      (renameTable t).headers
          = t.headers.map (fun h => (lookupAssoc column_mapping h).getD h) ∧
      (renameTable t).rows = t.rows ∧
      (renameTable t).headers.length = t.headers.length :=
  fun t => ⟨renameTable_headers_map t, rfl, by rw [renameTable_headers_map]; simp⟩

/-- C6: renaming with the fixed map is idempotent — applying it twice
equals applying it once, because no target name is also a source key. -/
theorem C6_rename_idempotent :
    ∀ t : Table, renameTable (renameTable t) = renameTable t :=
  fun t => renameTable_of_no_keys (renameTable_headers_not_keys t)

/-- C3: entry selection filters the archive's names to those ending in
".csv" case-insensitively and takes the first match in listing order;
only that entry is ever extracted, all others are never read. -/
theorem C3_first_csv_selected (now : DateTime) (ar : Archive) (n : String)
    (rest : List String) (hf : (namelist ar).filter endsWithCsv = n :: rest) :
    n ∈ namelist ar ∧ endsWithCsv n = true ∧
    UIEvent.entryRead n ∈ (process_zip_file now ar).1 ∧
    ∀ m, UIEvent.entryRead m ∈ (process_zip_file now ar).1 → m = n := by
  have hmem : n ∈ (namelist ar).filter endsWithCsv := by
    rw [hf]
    simp
  rw [process_zip_file_of_filter_cons hf]
  refine ⟨(List.mem_filter.mp hmem).1, (List.mem_filter.mp hmem).2, ?_, ?_⟩
  · cases hparse : parseTable (readEntry ar n) with
    | error e =>
      rw [processEntry_of_parse_error hparse]
      simp
    | ok df =>
      rw [processEntry_of_parse_ok hparse]
      simp
  · intro m hm
    cases hparse : parseTable (readEntry ar n) with
    | error e =>
      rw [processEntry_of_parse_error hparse] at hm
      simp at hm
      exact hm
    | ok df =>
      rw [processEntry_of_parse_ok hparse] at hm
      simp at hm
      exact hm

/-- Witness for C3 on an archive with a non-tabular entry followed by
two CSV entries (the first with an uppercase extension). -/
theorem C3_first_csv_selected_witness :
    "A.CSV" ∈ namelist [("x.txt", "n"), ("A.CSV", "h\n1"), ("b.csv", "h\n2")] ∧
    endsWithCsv "A.CSV" = true ∧
    UIEvent.entryRead "A.CSV" ∈
      (process_zip_file ⟨2026, 1, 2, 3, 4, 5⟩
        [("x.txt", "n"), ("A.CSV", "h\n1"), ("b.csv", "h\n2")]).1 := by
  have h := C3_first_csv_selected ⟨2026, 1, 2, 3, 4, 5⟩
    [("x.txt", "n"), ("A.CSV", "h\n1"), ("b.csv", "h\n2")] "A.CSV" ["b.csv"] (by decide)
  exact ⟨h.1, h.2.1, h.2.2.1⟩

/-- C4: an archive with no ".csv"-suffixed entry fails with the
no-tabular-file error, produces no Table, and the caller is shown
nothing beyond the error message — no preview, no download link, no
metrics. -/
theorem C4_no_csv_error (now : DateTime) (ar : Archive)
    (h : ∀ n ∈ namelist ar, endsWithCsv n = false) :
    process_zip_file now ar
        = ([.errorMsg "No CSV files found in the ZIP archive"],
           .error .noTabularFileFound) ∧
    main_run now ar = [.successBanner,
                       .errorMsg "No CSV files found in the ZIP archive"] := by
  have hf : (namelist ar).filter endsWithCsv = [] := by
    apply List.filter_eq_nil_iff.mpr
    intro a ha
    simp [h a ha]
  refine ⟨process_zip_file_of_filter_nil hf, ?_⟩
  unfold main_run
  rw [process_zip_file_of_filter_nil hf]
  rfl

/-- Witness for C4 on an archive holding a single text entry. -/
theorem C4_no_csv_error_witness :
    process_zip_file ⟨2026, 1, 2, 3, 4, 5⟩ [("a.txt", "x")]
        = ([.errorMsg "No CSV files found in the ZIP archive"],
           .error .noTabularFileFound) ∧
    main_run ⟨2026, 1, 2, 3, 4, 5⟩ [("a.txt", "x")]
        = [.successBanner, .errorMsg "No CSV files found in the ZIP archive"] :=
  C4_no_csv_error ⟨2026, 1, 2, 3, 4, 5⟩ [("a.txt", "x")] (by decide)

/-- C10 counterexample: a first data line wider than the header does
not fail — the documented index-column inference of `pd.read_csv`
absorbs the extra leading field into the implicit index (which
`to_csv(index=False)` later drops), so the universal parse failure the
claim asserts is false of the code: "a,b\n1,2,3" parses
successfully. -/
theorem C10_truncation_counterexample :
    parseTable "a,b\n1,2,3" = .ok ⟨["a", "b"], [["2", "3"]]⟩ ∧
    (process_zip_file ⟨2026, 1, 2, 3, 4, 5⟩ [("d.csv", "a,b\n1,2,3")]).2
        = .ok ⟨⟨["a", "b"], [["2", "3"]]⟩, "a,b\n2,3\n",
               "processed_20260102_030405.csv"⟩ := by
  constructor <;> decide

/-- C10 (amended): parsing establishes an expected width equal to the
larger of the header width and the first data line's width — a wider
first data line succeeds, its extra leading fields becoming implicit
index columns, never truncated into the named data — and whenever some
data line is wider than the established width, the parse stage fails
with the too-many-fields parser error and the invocation returns no
Table. -/
theorem C10_established_width_error (s : String) (l first : List Char)
    (more : List (List Char)) (now : DateTime) (ar : Archive) (name : String)
    (others : List String)
    (hcl : contentLines s = l :: first :: more)
    (hbad : ∃ line ∈ first :: more,
        max (fieldsOfLine l).length (fieldsOfLine first).length
          < (fieldsOfLine line).length)
    (hfilter : (namelist ar).filter endsWithCsv = name :: others)
    (hread : readEntry ar name = s) :
    (∃ exp got, parseTable s = .error (.tooManyFields exp got)) ∧
    ∃ te, (process_zip_file now ar).2 = .error (.malformed te) := by
  rcases hbad with ⟨line, hline, hlt⟩
  have herr := parseRow_error_of_gt hlt
  rcases mapExcept_error_of_mem hline herr with ⟨e2, hmap, x2, hx2, hfx2⟩
  rcases parseRow_error_inv hfx2 with ⟨he2, _⟩
  have hparse : parseTable s = .error e2 := by
    rw [parseTable_of_contentLines_cons hcl, parseBody_cons,
      parseBodyData_of_error hmap]
  subst he2
  refine ⟨⟨max (fieldsOfLine l).length (fieldsOfLine first).length,
    (fieldsOfLine x2).length, hparse⟩,
    .tooManyFields (max (fieldsOfLine l).length (fieldsOfLine first).length)
      (fieldsOfLine x2).length, ?_⟩
  rw [process_zip_file_of_filter_cons hfilter,
    processEntry_of_parse_error (by rw [hread]; exact hparse)]

/-- Witness for C10 on a two-field header, a two-field first data line
and a three-field second data line. -/
theorem C10_established_width_error_witness :
    (∃ exp got, parseTable "a,b\n1,2\n1,2,3" = .error (.tooManyFields exp got)) ∧
    ∃ te, (process_zip_file ⟨2026, 1, 2, 3, 4, 5⟩
      [("d.csv", "a,b\n1,2\n1,2,3")]).2 = .error (.malformed te) :=
  C10_established_width_error "a,b\n1,2\n1,2,3" ['a', ',', 'b'] ['1', ',', '2']
    [['1', ',', '2', ',', '3']] ⟨2026, 1, 2, 3, 4, 5⟩
    [("d.csv", "a,b\n1,2\n1,2,3")] "d.csv" []
    (by decide) ⟨['1', ',', '2', ',', '3'], by decide, by decide⟩
    (by decide) (by decide)

/-- C7 counterexamples to the two unconditional round-trip laws.
(1) The single-column table with one empty-string field satisfies the
claim's hypotheses (well-formed; no delimiter, quote or line break in
any field), yet serializes to a blank data line that the parser skips,
so the row is dropped.  (2) The input "a\n1,2\n3" parses successfully
(implicit index column), but its second parsed row is all padding in
the named column, so the parsed table re-serializes with a blank line
and parse-serialize-parse loses that row — in the model exactly as in
the pandas reference behaviour (missing values serialize as empty
fields, blank lines are skipped on read). -/
theorem C7_roundtrip_counterexample :
    (Wellformed ⟨["h"], [[""]]⟩ ∧ NoSpecialChars ⟨["h"], [[""]]⟩ ∧
      parseTable (serialize ⟨["h"], [[""]]⟩) ≠ .ok ⟨["h"], [[""]]⟩) ∧
    parseTable "a\n1,2\n3" = .ok ⟨["a"], [["2"], [""]]⟩ ∧
    parseTable (serialize ⟨["a"], [["2"], [""]]⟩) ≠ .ok ⟨["a"], [["2"], [""]]⟩ := by
  refine ⟨⟨by decide, by decide, by decide⟩, by decide, by decide⟩

/-- C7 (amended): serialization inverts parsing — (1) for every
well-formed table with no embedded delimiter, quote or line break in
any header or field and no header or data row that serializes to a
blank line, serialize-then-parse is the identity; (2)
parse-serialize-parse over input bytes reproduces the same parsed
table whenever the parsed table has no blank serialized row line, and
(3) unconditionally whenever the input triggered no implicit
index-column inference (first data line no wider than the header). -/
theorem C7_roundtrip_amended :
    (∀ t : Table, Wellformed t → NoSpecialChars t → NoBlankLines t →
        parseTable (serialize t) = .ok t) ∧
    (∀ s t, parseTable s = .ok t → NoBlankLines t →
        parseTable (serialize t) = .ok t) ∧
    ∀ s t, parseTable s = .ok t → NoImplicitIndex s →
        parseTable (serialize t) = .ok t := by
  refine ⟨?_, ?_, ?_⟩
  · intro t hw hs hnb
    apply parseTable_serialize t hw ?_ hnb
    exact ⟨fun h hh => ⟨(hs.1 h hh).1, (hs.1 h hh).2.2⟩,
           fun r hr f hf => ⟨(hs.2 r hr f hf).1, (hs.2 r hr f hf).2.2⟩⟩
  · intro s t hp hnb
    exact parse_serialize_parse hp hnb
  · intro s t hp hni
    exact parse_serialize_parse_of_noIndex hp hni

/-- Witness for C7: a clean two-column table, raw input with a short
padded row, and a single-column input with no index inference. -/
theorem C7_roundtrip_amended_witness :
    parseTable (serialize ⟨["a", "b"], [["1", "2"]]⟩)
        = .ok ⟨["a", "b"], [["1", "2"]]⟩ ∧
    parseTable (serialize ⟨["a", "b"], [["1", ""]]⟩)
        = .ok ⟨["a", "b"], [["1", ""]]⟩ ∧
    parseTable (serialize ⟨["x"], [["7"]]⟩) = .ok ⟨["x"], [["7"]]⟩ := by
  refine ⟨?_, ?_, ?_⟩
  · exact C7_roundtrip_amended.1 ⟨["a", "b"], [["1", "2"]]⟩
      (by decide) (by decide) (by decide)
  · exact C7_roundtrip_amended.2.1 "a,b\n1" ⟨["a", "b"], [["1", ""]]⟩
      (by decide) (by decide)
  · exact C7_roundtrip_amended.2.2 "x\n7" ⟨["x"], [["7"]]⟩ (by decide) (by decide)

/-- C9: the generated output filename is exactly "processed_" followed
by the invocation's wall-clock time as YYYYMMDD_HHMMSS followed by
".csv": an 8-digit date block, an underscore, and a 6-digit time block
whose fixed-width decimal slices decode back to the timestamp's
year, month, day, hour, minute and second. -/
theorem C9_filename_format (now : DateTime)
    (hy : now.year ≤ 9999) (hmo : now.month ≤ 99) (hd : now.day ≤ 99)
    (hh : now.hour ≤ 99) (hmi : now.minute ≤ 99) (hs : now.second ≤ 99) :
    ∃ d8 t6 : List Char,
      (outputFilename now).data
          = "processed_".data ++ d8 ++ '_' :: t6 ++ ".csv".data ∧
      d8.length = 8 ∧ t6.length = 6 ∧
      (∀ c ∈ d8, c.isDigit = true) ∧ (∀ c ∈ t6, c.isDigit = true) ∧
      natOfDigits (d8.take 4) = now.year ∧
      natOfDigits ((d8.drop 4).take 2) = now.month ∧
      natOfDigits (d8.drop 6) = now.day ∧
      natOfDigits (t6.take 2) = now.hour ∧
      natOfDigits ((t6.drop 2).take 2) = now.minute ∧
      natOfDigits (t6.drop 4) = now.second := by
  refine ⟨(pad4 now.year).data ++ (pad2 now.month).data ++ (pad2 now.day).data,
          (pad2 now.hour).data ++ (pad2 now.minute).data ++ (pad2 now.second).data,
          ?_, rfl, rfl, ?_, ?_,
          natOfDigits_pad4 hy, natOfDigits_pad2 hmo, natOfDigits_pad2 hd,
          natOfDigits_pad2 hh, natOfDigits_pad2 hmi, natOfDigits_pad2 hs⟩
  · rfl
  · intro c hc
    simp only [pad4, pad2, List.mem_append, List.mem_cons,
      List.not_mem_nil, or_false] at hc
    rcases hc with ((rfl | rfl | rfl | rfl) | rfl | rfl) | rfl | rfl <;>
      exact digitChar_isDigit _
  · intro c hc
    simp only [pad2, List.mem_append, List.mem_cons,
      List.not_mem_nil, or_false] at hc
    rcases hc with ((rfl | rfl) | rfl | rfl) | rfl | rfl <;>
      exact digitChar_isDigit _

/-- Witness for C9 at a concrete timestamp. -/
theorem C9_filename_format_witness :
    ∃ d8 t6 : List Char,
      (outputFilename ⟨2026, 10, 12, 3, 4, 5⟩).data
          = "processed_".data ++ d8 ++ '_' :: t6 ++ ".csv".data ∧
      d8.length = 8 ∧ t6.length = 6 ∧
      (∀ c ∈ d8, c.isDigit = true) ∧ (∀ c ∈ t6, c.isDigit = true) ∧
      natOfDigits (d8.take 4) = 2026 ∧
      natOfDigits ((d8.drop 4).take 2) = 10 ∧
      natOfDigits (d8.drop 6) = 12 ∧
      natOfDigits (t6.take 2) = 3 ∧
      natOfDigits ((t6.drop 2).take 2) = 4 ∧
      natOfDigits (t6.drop 4) = 5 :=
  C9_filename_format ⟨2026, 10, 12, 3, 4, 5⟩ (by decide) (by decide) (by decide)
    (by decide) (by decide) (by decide)

/-- C1 (code bug): on a successfully processed archive, `main` does show
the row-count and column-count statistics and the rows metric, but the
renamed-header-count metric is never shown: line 124 of the source
reads `rename_dict`, a local of `process_zip_file` that is unbound in
`main`'s scope, so the run ends in an uncaught NameError instead of the
metric.  Full event-stream evaluation at a concrete archive. -/
theorem C1_renamed_metric_never_shown :
    main_run ⟨2026, 1, 2, 3, 4, 5⟩ [("data.csv", "a,b\n1,2")]
      = [.successBanner, .info "Found CSV file: data.csv", .entryRead "data.csv",
         .writeCols "Original columns:" ["a", "b"],
         .writeCols "Renamed columns:" ["a", "b"],
         .preview ⟨["a", "b"], [["1", "2"]]⟩,
         .downloadLink "processed_20260102_030405.csv" "a,b\n1,2\n",
         .writeText "Total rows: 1", .writeText "Total columns: 2",
         .metric "Rows Processed" "1",
         .uncaughtName (.nameError "rename_dict")] ∧
    (main_run ⟨2026, 1, 2, 3, 4, 5⟩ [("data.csv", "a,b\n1,2")]).filter
        isColumnsRenamedMetric = [] := by
  constructor <;> decide

end ErajayaCSV
